import Mathlib

/-!
Verification of the go-backup-system client core.

The development shallowly embeds the client-side versioned content store:
the catalog (package `catalog`, SQLite table `dosyalar`), the incremental
scanner, the shard-packing backup driver (`Service.Run`), the restore
planners, and the crypto composition layer (package `crypto`).

Modelling conventions:
- A catalog state is the list of rows of the `dosyalar` table in rowid
  (insertion) order; the table carries no PRIMARY KEY and no UNIQUE index
  (see `initSchema`), so the row multiset is exactly a list of records.
- Go `time.Time` instants are modelled by whole seconds since the epoch
  plus a nanosecond component; SQL comparisons on the `tarih` column are
  modelled by the chronological order of instants (all rows of one catalog
  are written with the same zone offset, under which the stored string
  order agrees with instant order).
- SQL queries are translated clause by clause into list functions; where
  SQLite leaves a row choice unspecified (ORDER BY ... LIMIT 1 among equal
  keys, GROUP BY row selection) the embedding fixes one admissible choice.
- External library primitives (AES-GCM, gzip) are parameters of the
  embedding; the repository code under verification is the composition
  around them (nonce layout, length checks, compose order).
-/

namespace BackupSystem

/-- An instant on the timeline, modelling Go `time.Time`: whole seconds
since the epoch plus a nanosecond component. -/
structure DateTime where
  sec : Int
  nsec : Nat
  deriving DecidableEq, Repr

/-- Chronological order on instants, lexicographic on (seconds, nanoseconds).
This is the order the SQL comparisons on `tarih` follow. -/
def DateTime.le (a b : DateTime) : Prop :=
  a.sec < b.sec ∨ (a.sec = b.sec ∧ a.nsec ≤ b.nsec)

instance (a b : DateTime) : Decidable (DateTime.le a b) :=
  inferInstanceAs (Decidable (a.sec < b.sec ∨ (a.sec = b.sec ∧ a.nsec ≤ b.nsec)))

/-- Go `t.Add(time.Second)`: one second later, same sub-second part. -/
def DateTime.addSecond (t : DateTime) : DateTime :=
  { sec := t.sec + 1, nsec := t.nsec }

/-- One row of the `dosyalar` table (struct `catalog.FileEntry`):
(tarih, dizin, adi, yeni_adi, hash_degeri, boyu, paketli_boyu). -/
structure FileEntry where
  timestamp : DateTime
  directory : String
  origPath : String
  hashedName : String
  contentHash : String
  size : Int
  packedSize : Int
  deriving DecidableEq, Repr

/-- The row selected by `ORDER BY tarih DESC LIMIT 1`: an entry whose
timestamp is maximal in the list (among equal timestamps SQLite returns an
unspecified row; the embedding keeps the earliest such row). -/
def selectMaxTs : List FileEntry → Option FileEntry
  | [] => none
  | e :: es =>
    match selectMaxTs es with
    | none => some e
    | some m => if DateTime.le m.timestamp e.timestamp then some e else some m

/-- The WHERE clause `adi = p AND tarih <= bound` of the point-in-time
lookups. -/
def entryMatches (p : String) (bound : DateTime) (e : FileEntry) : Bool :=
  decide (e.origPath = p ∧ DateTime.le e.timestamp bound)

/-- `Catalog.GetFileAtTime`: `SELECT ... WHERE adi = ? AND tarih <= ?
ORDER BY tarih DESC LIMIT 1` with `searchTime := targetTime.Add(time.Second)`
(the one-second forward buffer of the source). -/
def getFileAtTime (cat : List FileEntry) (origPath : String) (targetTime : DateTime) :
    Option FileEntry :=
  selectMaxTs (cat.filter (entryMatches origPath targetTime.addSecond))

/-- `Catalog.GetLatestVersion`: `SELECT ... WHERE adi = ? ORDER BY tarih
DESC LIMIT 1`. -/
def getLatestVersion (cat : List FileEntry) (origPath : String) : Option FileEntry :=
  selectMaxTs (cat.filter (fun e => decide (e.origPath = origPath)))

/-- `Catalog.NeedsBackup`: new file, or latest content hash differs.
The `currentSize` argument is accepted and ignored, exactly as in the
source; the embedding covers the error-free query path. -/
def needsBackup (cat : List FileEntry) (origPath currentHash : String)
    (currentSize : Int) : Bool :=
  match getLatestVersion cat origPath with
  | none => true
  | some latest => decide (latest.contentHash ≠ currentHash)

/-- `SELECT MAX(tarih) FROM dosyalar WHERE adi = p AND tarih <= bound`,
the correlated subquery shared by the set-valued point-in-time queries. -/
def maxTsLe (cat : List FileEntry) (p : String) (bound : DateTime) : Option DateTime :=
  (selectMaxTs (cat.filter (entryMatches p bound))).map (fun e => e.timestamp)

/-- `Catalog.GetFilesAtTime`: the join keeps every row whose timestamp is
the per-path maximum among rows with `tarih <= targetTime`. Note the
source passes `targetTime` itself here, with no one-second buffer. -/
def getFilesAtTime (cat : List FileEntry) (targetTime : DateTime) : List FileEntry :=
  cat.filter (fun e => decide (maxTsLe cat e.origPath targetTime = some e.timestamp))

/-- `GROUP BY adi` row selection: keep the first row of each path group. -/
def dedupByPath : List FileEntry → List FileEntry
  | [] => []
  | e :: es => e :: dedupByPath (es.filter (fun e2 => decide (e2.origPath ≠ e.origPath)))
termination_by l => l.length
decreasing_by
  simp only [List.length_cons]
  exact Nat.lt_succ_of_le (List.length_filter_le _ _)

/-- `Catalog.GetFilesAtTimestamp`: rows whose timestamp equals the per-path
maximum among rows with `tarih <= ts + 1s`, one row per path (`GROUP BY
adi`). The source projects each row to a `CatalogFileInfo`; the embedding
keeps the selected rows, which carry the same version identity. -/
def getFilesAtTimestamp (cat : List FileEntry) (ts : DateTime) : List FileEntry :=
  dedupByPath (cat.filter (fun e =>
    decide (maxTsLe cat e.origPath ts.addSecond = some e.timestamp)))

/-- `Catalog.GetFilesInDirAtTime`: rows under the directory prefix
(`adi LIKE dirPath || '%'`, with a wildcard-free prefix) whose timestamp is
the per-path maximum among rows with `tarih <= targetTime + 1s`, one row
per path (`GROUP BY d1.adi`). -/
def getFilesInDirAtTime (cat : List FileEntry) (dirPath : String)
    (targetTime : DateTime) : List FileEntry :=
  dedupByPath (cat.filter (fun e =>
    dirPath.isPrefixOf e.origPath &&
      decide (maxTsLe cat e.origPath targetTime.addSecond = some e.timestamp)))

/-- `Catalog.ImportFromFile`: every row read from the snapshot is inserted
into `dosyalar` with `INSERT OR REPLACE`. The table has no PRIMARY KEY and
no UNIQUE index (`initSchema` creates only plain indexes), so the REPLACE
conflict clause can never fire and each statement appends a fresh row with
a new rowid; the loop therefore appends the snapshot rows in order. -/
def importFromFile (cat : List FileEntry) (snapshot : List FileEntry) :
    List FileEntry :=
  snapshot.foldl (fun acc row => acc ++ [row]) cat

/-- The insert loop of `Catalog.AddEntries`: one `INSERT` per entry inside
one transaction; `insertOk` is the oracle for the fallible statement
execution. A failed insert rolls the transaction back (`none`). -/
def insertLoop (insertOk : FileEntry → Bool) :
    List FileEntry → List FileEntry → Option (List FileEntry)
  | acc, [] => some acc
  | acc, e :: es => if insertOk e then insertLoop insertOk (acc ++ [e]) es else none

/-- `Catalog.AddEntries`: commit the transaction on success, roll back to
the unchanged catalog on any insert failure. Returns (committed, catalog). -/
def addEntries (cat : List FileEntry) (entries : List FileEntry)
    (insertOk : FileEntry → Bool) : Bool × List FileEntry :=
  match insertLoop insertOk cat entries with
  | some c => (true, c)
  | none => (false, cat)

/-- `maxTarSize`: 25 MiB shard bound of the packing loop. -/
def maxTarSize : Nat := 25 * 1024 * 1024

/-- One scanner output record as consumed by the packing loop of
`Service.Run` (struct `fileToBackup` plus the per-file outcome of
`crypto.EncryptFile` and the subsequent tar writes: `some packed` is the
encrypted byte count on success, `none` means the file was skipped). -/
structure PackFile where
  path : String
  dir : String
  size : Int
  hashedName : String
  contentHash : String
  enc : Option Nat
  deriving DecidableEq, Repr

/-- The catalog entry appended for a packed file (`catalog.FileEntry`
literal in `Service.Run`), stamped with the session timestamp. -/
def mkEntry (t : DateTime) (f : PackFile) (packed : Nat) : FileEntry :=
  { timestamp := t, directory := f.dir, origPath := f.path,
    hashedName := f.hashedName, contentHash := f.contentHash,
    size := f.size, packedSize := (packed : Int) }

/-- The cooperative cancellation flag (`s.shouldStop`) as observed at the
start of loop iteration `i`: `cancelFrom = some k` means the flag is set
from iteration `k` on. -/
def shouldStopAt (cancelFrom : Option Nat) (i : Nat) : Bool :=
  match cancelFrom with
  | none => false
  | some k => decide (k ≤ i)

/-- Mutable state of the packing loop in `Service.Run`: accumulated byte
count of the open tar, its member sizes, the 1-based part index, the
pending catalog entries and the shards uploaded so far (as member-size
lists). -/
structure PackState where
  tarSize : Nat
  cur : List Nat
  part : Nat
  entries : List FileEntry
  shards : List (List Nat)
  deriving Repr

/-- Session failure modes of `Service.Run`, in source order. -/
inductive RunError
  | cancelled
  | uploadFailed
  | commitFailed
  | exportFailed
  | catalogUploadFailed
  deriving DecidableEq, Repr

/-- The per-file packing loop of `Service.Run`: check the stop flag, skip
files whose encryption failed, otherwise add the member and the pending
catalog entry, and when the accumulated size exceeds `maxTarSize` seal and
upload the shard (a failed upload aborts the session). An error carries
the shards already uploaded. -/
def packLoop (t : DateTime) (cancelFrom : Option Nat) (uploadOk : Nat → Bool) :
    List PackFile → Nat → PackState → Except (RunError × List (List Nat)) PackState
  | [], _, st => .ok st
  | f :: fs, i, st =>
    if shouldStopAt cancelFrom i then .error (.cancelled, st.shards)
    else
      match f.enc with
      | none => packLoop t cancelFrom uploadOk fs (i + 1) st
      | some packed =>
        let tarSize2 := st.tarSize + packed
        let cur2 := st.cur ++ [packed]
        let entries2 := st.entries ++ [mkEntry t f packed]
        if maxTarSize < tarSize2 then
          if uploadOk st.part then
            packLoop t cancelFrom uploadOk fs (i + 1)
              { tarSize := 0, cur := [], part := st.part + 1,
                entries := entries2, shards := st.shards ++ [cur2] }
          else .error (.uploadFailed, st.shards)
        else
          packLoop t cancelFrom uploadOk fs (i + 1)
            { st with tarSize := tarSize2, cur := cur2, entries := entries2 }

/-- Outcome of one `Service.Run` invocation: the error if the session
failed, the resulting catalog state, and the uploaded shards. -/
structure RunResult where
  err : Option RunError
  catalog : List FileEntry
  shards : List (List Nat)
  deriving Repr

/-- Tail of `Service.Run` after the shard uploads: the `AddEntries` commit
point (skipped when no entries accumulated, `len(catalogEntries) > 0`),
then catalog export and encrypted-snapshot upload. The catalog state
changes only at the commit point. -/
def commitPhase (cat : List FileEntry) (insertOk : FileEntry → Bool)
    (exportOk catUploadOk : Bool) (entries : List FileEntry)
    (allShards : List (List Nat)) : RunResult :=
  match (if entries.isEmpty then (true, cat) else addEntries cat entries insertOk) with
  | (false, c) => ⟨some .commitFailed, c, allShards⟩
  | (true, c) =>
    if exportOk then
      if catUploadOk then ⟨none, c, allShards⟩
      else ⟨some .catalogUploadFailed, c, allShards⟩
    else ⟨some .exportFailed, c, allShards⟩

/-- End of the packing loop in `Service.Run`: the final open shard is
sealed and uploaded only when it has bytes (`tarSize > 0`), then the
session proceeds to the commit phase. -/
def finishSession (cat : List FileEntry) (uploadOk : Nat → Bool)
    (insertOk : FileEntry → Bool) (exportOk catUploadOk : Bool)
    (st : PackState) : RunResult :=
  if 0 < st.tarSize then
    if uploadOk st.part then
      commitPhase cat insertOk exportOk catUploadOk st.entries (st.shards ++ [st.cur])
    else ⟨some .uploadFailed, cat, st.shards⟩
  else commitPhase cat insertOk exportOk catUploadOk st.entries st.shards

/-- `Service.Run` from the scan result on: early return when nothing needs
backup, then the packing loop followed by the session finish. -/
def runBackup (cat : List FileEntry) (t : DateTime) (files : List PackFile)
    (cancelFrom : Option Nat) (uploadOk : Nat → Bool) (insertOk : FileEntry → Bool)
    (exportOk catUploadOk : Bool) : RunResult :=
  if files.isEmpty then ⟨none, cat, []⟩
  else
    match packLoop t cancelFrom uploadOk files 0 ⟨0, [], 1, [], []⟩ with
    | .error (e, shards) => ⟨some e, cat, shards⟩
    | .ok st => finishSession cat uploadOk insertOk exportOk catUploadOk st

/-- The scanner per-file decision chain of
`Service.scanDirectoryIncrementalWithProgress`: zero-sized entries,
already-seen absolute paths and blacklisted extensions are skipped, a
content-hash read error skips the file, otherwise a ChangeRecord is
emitted iff `NeedsBackup` answers true. `ext` is the lowercased extension
of the path. The embedding covers the error-free catalog query path. -/
def scanStepEmits (cat : List FileEntry) (seen : List String)
    (blacklist : List String) (path ext : String) (size : Int)
    (hashResult : Option String) : Bool :=
  if size = 0 then false
  else if seen.contains path then false
  else if blacklist.any (fun b => ext == b || ext == "." ++ b) then false
  else
    match hashResult with
    | none => false
    | some h => needsBackup cat path h size

/-- The session id computed at the start of `Service.Run`:
`time.Now().Format("20060102-150405")`. The format string renders the
whole-second part of the instant and drops the sub-second component; the
Gregorian rendering is injective on whole seconds within one zone, so the
id is modelled by the whole-second count of the clock reading. -/
def sessionBackupID (now : DateTime) : Int :=
  now.sec

/-- The session identity data established at the start of one `Service.Run`
invocation: the formatted backup id and the session timestamp, both read
from the ambient clock. `Service.Run` contains no wait or throttle between
sessions, so any clock instant is an admissible start. -/
structure SessionStart where
  backupID : Int
  timestamp : DateTime
  deriving DecidableEq, Repr

/-- The two clock reads at the top of `Service.Run` (`backupID` at the
session start, `timestamp` just before the packing loop), modelled from a
single read of the monotone clock. -/
def runSessionStart (now : DateTime) : SessionStart :=
  { backupID := sessionBackupID now, timestamp := now }

/-- The wire rendering `Format("2006-01-02T15:04:05")` of a catalog
timestamp in the restore request body: the whole-second part of the
instant (sub-second dropped; Gregorian rendering is injective on whole
seconds within one zone). -/
def formatTargetDate (t : DateTime) : Int :=
  t.sec

/-- The `(hashed_name, target_date)` request list built by
`Service.RestoreFile`: the version is resolved with `GetFileAtTime` and
the pair carries that versions own timestamp. `none` models the
file-not-found-at-date error return. -/
def restoreFileRequest (cat : List FileEntry) (origPath : String)
    (targetDate : DateTime) : Option (List (String × Int)) :=
  match getFileAtTime cat origPath targetDate with
  | none => none
  | some f => some [(f.hashedName, formatTargetDate f.timestamp)]

/-- The `(hashed_name, target_date)` request list built by
`Service.RestoreDirectory`: one pair per version resolved by
`GetFilesInDirAtTime`, each carrying that versions own timestamp. `none`
models the no-files-found error return. -/
def restoreDirectoryRequest (cat : List FileEntry) (dirPath : String)
    (targetDate : DateTime) : Option (List (String × Int)) :=
  if (getFilesInDirAtTime cat dirPath targetDate).isEmpty then none
  else
    some ((getFilesInDirAtTime cat dirPath targetDate).map
      (fun f => (f.hashedName, formatTargetDate f.timestamp)))

/-- Byte strings, as lists of byte values. -/
abbrev Bytes := List Nat

/-- The AES-GCM primitives of the Go standard library, external to the
repository: `gcmSeal key nonce plain` is the ciphertext-with-tag of
`gcm.Seal(nil, nonce, plain, nil)`, and `gcmOpen` its authenticated
inverse, `none` on authentication failure. -/
structure AEADModel where
  gcmSeal : Bytes → Bytes → Bytes → Bytes
  gcmOpen : Bytes → Bytes → Bytes → Option Bytes

/-- The gzip primitives of the Go standard library, external to the
repository: writer-side compression and reader-side decompression
(`none` on malformed input). -/
structure GzipModel where
  compress : Bytes → Bytes
  decompress : Bytes → Option Bytes

/-- `gcm.NonceSize()` for AES-GCM: 96 bits. -/
def gcmNonceSize : Nat := 12

/-- `aes.NewCipher` succeeds exactly on 16, 24 or 32 byte keys. -/
def validAesKey (key : Bytes) : Bool :=
  decide (key.length = 16 ∨ key.length = 24 ∨ key.length = 32)

/-- `crypto.Encrypt`: AES-256-GCM with a fresh random nonce; the call
`gcm.Seal(nonce, nonce, data, nil)` prepends the nonce to the sealed
bytes. The nonce drawn from the CSPRNG is a parameter (`io.ReadFull`
fills exactly `gcm.NonceSize()` bytes). -/
def Encrypt (M : AEADModel) (nonce : Bytes) (data key : Bytes) :
    Except String Bytes :=
  if validAesKey key then .ok (nonce ++ M.gcmSeal key nonce data)
  else .error "invalid key size"

/-- `crypto.Decrypt`: reject inputs shorter than the nonce, split the
nonce off the front, then authenticated-decrypt the remainder. -/
def Decrypt (M : AEADModel) (data key : Bytes) : Except String Bytes :=
  if validAesKey key then
    if data.length < gcmNonceSize then .error "ciphertext too short"
    else
      match M.gcmOpen key (data.take gcmNonceSize) (data.drop gcmNonceSize) with
      | some plain => .ok plain
      | none => .error "message authentication failed"
  else .error "invalid key size"

/-- `crypto.CompressAndEncrypt`: gzip then encrypt. -/
def CompressAndEncrypt (G : GzipModel) (M : AEADModel) (nonce : Bytes)
    (data key : Bytes) : Except String Bytes :=
  Encrypt M nonce (G.compress data) key

/-- `crypto.DecryptAndDecompress`: decrypt then gunzip. -/
def DecryptAndDecompress (G : GzipModel) (M : AEADModel) (data key : Bytes) :
    Except String Bytes :=
  match Decrypt M data key with
  | .error e => .error e
  | .ok compressed =>
    match G.decompress compressed with
    | some out => .ok out
    | none => .error "gzip error"

/-- A sealed shard is well-formed when its accumulated size without the
final member stays within the contractual bound. -/
def ShardOk (sh : List Nat) : Prop :=
  ∃ pre m, sh = pre ++ [m] ∧ pre.sum ≤ maxTarSize

/-- Sample row: first version of /data/a.txt. -/
def rowA : FileEntry :=
  { timestamp := ⟨10, 0⟩, directory := "/data", origPath := "/data/a.txt",
    hashedName := "ha", contentHash := "c1", size := 5, packedSize := 40 }

/-- Sample row: second version of /data/a.txt. -/
def rowA2 : FileEntry :=
  { timestamp := ⟨20, 0⟩, directory := "/data", origPath := "/data/a.txt",
    hashedName := "ha", contentHash := "c2", size := 6, packedSize := 41 }

/-- Sample row: only version of /data/b.txt. -/
def rowB : FileEntry :=
  { timestamp := ⟨30, 0⟩, directory := "/data", origPath := "/data/b.txt",
    hashedName := "hb", contentHash := "c3", size := 7, packedSize := 42 }

/-- Sample catalog with two paths and three versions. -/
def sampleCat : List FileEntry := [rowA, rowA2, rowB]

/-- Sample scanner record for the packing loop. -/
def pfA : PackFile :=
  { path := "/data/a.txt", dir := "/data", size := 5,
    hashedName := "ha", contentHash := "c1", enc := some 3 }

/-- Sample scanner record whose encrypted size fills a shard exactly. -/
def pfBig : PackFile :=
  { path := "/data/b.txt", dir := "/data", size := 26214400,
    hashedName := "hb", contentHash := "c3", enc := some 26214400 }

/-- Identity stand-in for the gzip primitives (satisfies the round-trip
law), used to instantiate parameterized theorems at concrete inputs. -/
def idGzip : GzipModel := ⟨id, some⟩

/-- Transparent stand-in for the AEAD primitives (satisfies the round-trip
law), used to instantiate parameterized theorems at concrete inputs. -/
def idAEAD : AEADModel := ⟨fun _ _ d => d, fun _ _ d => some d⟩

theorem DateTime.le_refl (a : DateTime) : DateTime.le a a := by
  unfold DateTime.le; omega

theorem DateTime.le_trans {a b c : DateTime}
    (h1 : DateTime.le a b) (h2 : DateTime.le b c) : DateTime.le a c := by
  unfold DateTime.le at h1 h2 ⊢; omega

theorem DateTime.le_total (a b : DateTime) :
    DateTime.le a b ∨ DateTime.le b a := by
  unfold DateTime.le; omega

theorem selectMaxTs_eq_none {l : List FileEntry} :
    selectMaxTs l = none ↔ l = [] := by
  cases l with
  | nil => simp [selectMaxTs]
  | cons a as =>
    simp only [selectMaxTs]
    constructor
    · intro h
      exfalso
      split at h
      · exact Option.noConfusion h
      · split at h <;> exact Option.noConfusion h
    · intro h
      simp at h

theorem selectMaxTs_mem : ∀ {l : List FileEntry} {e : FileEntry},
    selectMaxTs l = some e → e ∈ l := by
  intro l
  induction l with
  | nil => intro e h; simp [selectMaxTs] at h
  | cons a as ih =>
    intro e h
    simp only [selectMaxTs] at h
    split at h
    · simp only [Option.some.injEq] at h
      simp [h]
    · rename_i m heq
      split at h
      · simp only [Option.some.injEq] at h
        simp [h]
      · simp only [Option.some.injEq] at h
        exact h ▸ List.mem_cons_of_mem a (ih heq)

theorem selectMaxTs_isMax : ∀ {l : List FileEntry} {e : FileEntry},
    selectMaxTs l = some e →
    ∀ e2 ∈ l, DateTime.le e2.timestamp e.timestamp := by
  intro l
  induction l with
  | nil => intro e h; simp [selectMaxTs] at h
  | cons a as ih =>
    intro e h e2 he2
    simp only [selectMaxTs] at h
    split at h
    · rename_i heq
      simp only [Option.some.injEq] at h
      subst h
      rcases List.mem_cons.mp he2 with h2 | h2
      · exact h2 ▸ DateTime.le_refl _
      · rw [selectMaxTs_eq_none.mp heq] at h2
        simp at h2
    · rename_i m heq
      split at h
      · rename_i hle
        simp only [Option.some.injEq] at h
        subst h
        rcases List.mem_cons.mp he2 with h2 | h2
        · exact h2 ▸ DateTime.le_refl _
        · exact DateTime.le_trans (ih heq e2 h2) hle
      · rename_i hle
        simp only [Option.some.injEq] at h
        subst h
        rcases List.mem_cons.mp he2 with h2 | h2
        · rcases DateTime.le_total a.timestamp m.timestamp with h3 | h3
          · exact h2 ▸ h3
          · exact absurd h3 hle
        · exact ih heq e2 h2

theorem entryMatches_iff {p : String} {b : DateTime} {e : FileEntry} :
    entryMatches p b e = true ↔ e.origPath = p ∧ DateTime.le e.timestamp b := by
  simp [entryMatches]

theorem maxTsLe_some {cat : List FileEntry} {p : String} {b : DateTime}
    {m : DateTime} (h : maxTsLe cat p b = some m) :
    ∃ e ∈ cat, e.origPath = p ∧ e.timestamp = m ∧ DateTime.le m b := by
  simp only [maxTsLe, Option.map_eq_some'] at h
  obtain ⟨e, he, hm⟩ := h
  have hmem := selectMaxTs_mem he
  have hmatch := (entryMatches_iff).mp (List.mem_filter.mp hmem).2
  exact ⟨e, (List.mem_filter.mp hmem).1, hmatch.1, hm, hm ▸ hmatch.2⟩

theorem maxTsLe_ge {cat : List FileEntry} {p : String} {b : DateTime}
    {e : FileEntry} (hmem : e ∈ cat) (hp : e.origPath = p)
    (hb : DateTime.le e.timestamp b) :
    ∃ m, maxTsLe cat p b = some m ∧ DateTime.le e.timestamp m := by
  have hef : e ∈ cat.filter (entryMatches p b) :=
    List.mem_filter.mpr ⟨hmem, entryMatches_iff.mpr ⟨hp, hb⟩⟩
  cases hsel : selectMaxTs (cat.filter (entryMatches p b)) with
  | none =>
    rw [selectMaxTs_eq_none.mp hsel] at hef
    simp at hef
  | some top =>
    exact ⟨top.timestamp, by simp [maxTsLe, hsel],
      selectMaxTs_isMax hsel e hef⟩

theorem maxTsLe_isMax {cat : List FileEntry} {p : String} {b : DateTime}
    {m : DateTime} (h : maxTsLe cat p b = some m) :
    ∀ e2 ∈ cat, e2.origPath = p → DateTime.le e2.timestamp b →
      DateTime.le e2.timestamp m := by
  intro e2 hmem hp hb
  simp only [maxTsLe, Option.map_eq_some'] at h
  obtain ⟨e, he, hm⟩ := h
  exact hm ▸ selectMaxTs_isMax he e2
    (List.mem_filter.mpr ⟨hmem, entryMatches_iff.mpr ⟨hp, hb⟩⟩)

theorem mem_of_mem_dedupByPath : ∀ {l : List FileEntry} {e : FileEntry},
    e ∈ dedupByPath l → e ∈ l := by
  intro l
  induction l using dedupByPath.induct with
  | case1 => intro e h; simp [dedupByPath] at h
  | case2 a as ih =>
    intro e h
    rw [dedupByPath] at h
    rcases List.mem_cons.mp h with h2 | h2
    · simp [h2]
    · exact List.mem_cons_of_mem a (List.mem_of_mem_filter (ih h2))

theorem exists_dedupByPath_path : ∀ {l : List FileEntry} {e : FileEntry},
    e ∈ l → ∃ d ∈ dedupByPath l, d.origPath = e.origPath := by
  intro l
  induction l using dedupByPath.induct with
  | case1 => intro e h; simp at h
  | case2 a as ih =>
    intro e h
    by_cases hpath : e.origPath = a.origPath
    · exact ⟨a, by simp [dedupByPath], hpath.symm⟩
    · rcases List.mem_cons.mp h with h2 | h2
      · exact absurd (congrArg FileEntry.origPath h2) hpath
      · have hf : e ∈ as.filter (fun e2 => decide (e2.origPath ≠ a.origPath)) :=
          List.mem_filter.mpr ⟨h2, by simpa using hpath⟩
        obtain ⟨d, hd, hdp⟩ := ih hf
        exact ⟨d, by rw [dedupByPath]; exact List.mem_cons_of_mem a hd, hdp⟩

theorem dedupByPath_pairwise : ∀ (l : List FileEntry),
    (dedupByPath l).Pairwise (fun a b => a.origPath ≠ b.origPath) := by
  intro l
  induction l using dedupByPath.induct with
  | case1 => simp [dedupByPath]
  | case2 a as ih =>
    rw [dedupByPath]
    refine List.pairwise_cons.mpr ⟨?_, ih⟩
    intro b hb
    have hbf := mem_of_mem_dedupByPath hb
    have := (List.mem_filter.mp hbf).2
    simp only [ne_eq, decide_not, Bool.not_eq_true', decide_eq_false_iff_not] at this
    exact fun hab => this hab.symm

theorem insertLoop_spec (insertOk : FileEntry → Bool) :
    ∀ (es acc : List FileEntry),
      insertLoop insertOk acc es = some (acc ++ es) ∨
      insertLoop insertOk acc es = none := by
  intro es
  induction es with
  | nil => intro acc; left; simp [insertLoop]
  | cons e es ih =>
    intro acc
    by_cases h : insertOk e
    · rcases ih (acc ++ [e]) with h2 | h2
      · left; simp [insertLoop, h, h2]
      · right; simp [insertLoop, h, h2]
    · right; simp [insertLoop, h]

theorem addEntries_spec (cat entries : List FileEntry)
    (insertOk : FileEntry → Bool) :
    addEntries cat entries insertOk = (true, cat ++ entries) ∨
    addEntries cat entries insertOk = (false, cat) := by
  unfold addEntries
  rcases insertLoop_spec insertOk entries cat with h | h <;> simp [h]

theorem importFromFile_eq_append (cat snapshot : List FileEntry) :
    importFromFile cat snapshot = cat ++ snapshot := by
  unfold importFromFile
  induction snapshot generalizing cat with
  | nil => simp
  | cons s ss ih =>
    simp only [List.foldl_cons]
    rw [ih]
    simp

theorem ShardOk_concat {pre : List Nat} (m : Nat) (h : pre.sum ≤ maxTarSize) :
    ShardOk (pre ++ [m]) :=
  ⟨pre, m, rfl, h⟩

theorem ShardOk_of_ne_nil {sh : List Nat} (h : sh ≠ [])
    (hs : sh.sum ≤ maxTarSize) : ShardOk sh := by
  rcases List.eq_nil_or_concat sh with h0 | ⟨pre, m, heq⟩
  · exact absurd h0 h
  · rw [List.concat_eq_append] at heq
    subst heq
    have hpre : pre.sum ≤ (pre ++ [m]).sum := by simp
    exact ⟨pre, m, rfl, le_trans hpre hs⟩

theorem packLoop_shards (t : DateTime) (cancelFrom : Option Nat)
    (uploadOk : Nat → Bool) :
    ∀ (fs : List PackFile) (i : Nat) (st : PackState),
      st.tarSize = st.cur.sum → st.cur.sum ≤ maxTarSize →
      (∀ sh ∈ st.shards, ShardOk sh) →
      (∀ st2, packLoop t cancelFrom uploadOk fs i st = .ok st2 →
        (∀ sh ∈ st2.shards, ShardOk sh) ∧ st2.tarSize = st2.cur.sum ∧
          st2.cur.sum ≤ maxTarSize) ∧
      (∀ er shs, packLoop t cancelFrom uploadOk fs i st = .error (er, shs) →
        ∀ sh ∈ shs, ShardOk sh) := by
  intro fs
  induction fs with
  | nil =>
    intro i st h1 h2 h3
    refine ⟨?_, ?_⟩
    · intro st2 hok
      simp only [packLoop] at hok
      cases hok
      exact ⟨h3, h1, h2⟩
    · intro er shs herr
      simp [packLoop] at herr
  | cons f fs ih =>
    intro i st h1 h2 h3
    refine ⟨?_, ?_⟩
    · intro st2 hok
      simp only [packLoop] at hok
      split at hok
      · exact absurd hok (by simp)
      · split at hok
        · exact ((ih (i + 1) st h1 h2 h3).1 st2 hok)
        · rename_i packed heq
          split at hok
          · split at hok
            · refine ((ih (i + 1) _ rfl (Nat.zero_le _) ?_).1 st2 hok)
              intro sh hsh
              rcases List.mem_append.mp hsh with hs1 | hs1
              · exact h3 sh hs1
              · rw [List.mem_singleton.mp hs1]
                exact ShardOk_concat packed h2
            · exact absurd hok (by simp)
          · rename_i hle
            refine ((ih (i + 1) ⟨st.tarSize + packed, st.cur ++ [packed], st.part, st.entries ++ [mkEntry t f packed], st.shards⟩ ?_ ?_ h3).1 st2 hok)
            · simp [h1]
            · have hsum : (st.cur ++ [packed]).sum = st.tarSize + packed := by
                simp [h1]
              simp only [hsum]
              omega
    · intro er shs herr
      simp only [packLoop] at herr
      split at herr
      · simp only [Except.error.injEq, Prod.mk.injEq] at herr
        rw [← herr.2]
        exact h3
      · split at herr
        · exact ((ih (i + 1) st h1 h2 h3).2 er shs herr)
        · rename_i packed heq
          split at herr
          · split at herr
            · refine ((ih (i + 1) _ rfl (Nat.zero_le _) ?_).2 er shs herr)
              intro sh hsh
              rcases List.mem_append.mp hsh with hs1 | hs1
              · exact h3 sh hs1
              · rw [List.mem_singleton.mp hs1]
                exact ShardOk_concat packed h2
            · simp only [Except.error.injEq, Prod.mk.injEq] at herr
              rw [← herr.2]
              exact h3
          · rename_i hle
            refine ((ih (i + 1) ⟨st.tarSize + packed, st.cur ++ [packed], st.part, st.entries ++ [mkEntry t f packed], st.shards⟩ ?_ ?_ h3).2 er shs herr)
            · simp [h1]
            · have hsum : (st.cur ++ [packed]).sum = st.tarSize + packed := by
                simp [h1]
              simp only [hsum]
              omega

theorem commitPhase_shards (cat : List FileEntry) (insertOk : FileEntry → Bool)
    (exportOk catUploadOk : Bool) (entries : List FileEntry)
    (allShards : List (List Nat)) :
    (commitPhase cat insertOk exportOk catUploadOk entries allShards).shards =
      allShards := by
  unfold commitPhase
  split
  · rfl
  · split
    · split <;> rfl
    · rfl

theorem commitPhase_catalog (cat : List FileEntry) (insertOk : FileEntry → Bool)
    (exportOk catUploadOk : Bool) (entries : List FileEntry)
    (allShards : List (List Nat)) :
    (commitPhase cat insertOk exportOk catUploadOk entries allShards).catalog = cat ∨
    (commitPhase cat insertOk exportOk catUploadOk entries allShards).catalog =
      cat ++ entries := by
  unfold commitPhase
  split
  · rename_i c heq
    split at heq
    · left
      simp only [Prod.mk.injEq] at heq
      exact heq.2.symm
    · rcases addEntries_spec cat entries insertOk with h | h <;> rw [h] at heq <;>
        simp only [Prod.mk.injEq] at heq
      · exact absurd heq.1 (by simp)
      · left
        exact heq.2.symm
  · rename_i c heq
    have hc : c = cat ∨ c = cat ++ entries := by
      split at heq
      · left
        simp only [Prod.mk.injEq] at heq
        exact heq.2.symm
      · rcases addEntries_spec cat entries insertOk with h | h <;> rw [h] at heq <;>
          simp only [Prod.mk.injEq] at heq
        · right
          exact heq.2.symm
        · exact absurd heq.1 (by simp)
    split
    · split <;> exact hc
    · exact hc

theorem commitPhase_commitFailed (cat : List FileEntry)
    (insertOk : FileEntry → Bool) (exportOk catUploadOk : Bool)
    (entries : List FileEntry) (allShards : List (List Nat)) :
    (commitPhase cat insertOk exportOk catUploadOk entries allShards).err =
      some RunError.commitFailed →
    (commitPhase cat insertOk exportOk catUploadOk entries allShards).catalog =
      cat := by
  unfold commitPhase
  split
  · rename_i c heq
    intro _
    split at heq
    · simp only [Prod.mk.injEq] at heq
      exact absurd heq.1 (by simp)
    · rcases addEntries_spec cat entries insertOk with h | h <;> rw [h] at heq <;>
        simp only [Prod.mk.injEq] at heq
      · exact absurd heq.1 (by simp)
      · exact heq.2.symm
  · intro herr
    split at herr
    · split at herr <;> simp at herr
    · simp at herr

theorem commitPhase_err_not_early (cat : List FileEntry)
    (insertOk : FileEntry → Bool) (exportOk catUploadOk : Bool)
    (entries : List FileEntry) (allShards : List (List Nat)) :
    (commitPhase cat insertOk exportOk catUploadOk entries allShards).err ≠
        some RunError.cancelled ∧
    (commitPhase cat insertOk exportOk catUploadOk entries allShards).err ≠
        some RunError.uploadFailed := by
  unfold commitPhase
  split
  · simp
  · split
    · split <;> simp
    · simp

theorem finishSession_shards_sub (cat : List FileEntry) (uploadOk : Nat → Bool)
    (insertOk : FileEntry → Bool) (exportOk catUploadOk : Bool) (st : PackState) :
    ∀ sh ∈ (finishSession cat uploadOk insertOk exportOk catUploadOk st).shards,
      sh ∈ st.shards ∨ (sh = st.cur ∧ 0 < st.tarSize) := by
  unfold finishSession
  split
  · rename_i hpos
    split
    · rw [commitPhase_shards]
      intro sh hsh
      rcases List.mem_append.mp hsh with h | h
      · exact Or.inl h
      · exact Or.inr ⟨List.mem_singleton.mp h, hpos⟩
    · intro sh hsh
      exact Or.inl hsh
  · rw [commitPhase_shards]
    intro sh hsh
    exact Or.inl hsh

theorem finishSession_catalog_pre (cat : List FileEntry) (uploadOk : Nat → Bool)
    (insertOk : FileEntry → Bool) (exportOk catUploadOk : Bool) (st : PackState) :
    ((finishSession cat uploadOk insertOk exportOk catUploadOk st).err =
        some RunError.cancelled ∨
     (finishSession cat uploadOk insertOk exportOk catUploadOk st).err =
        some RunError.uploadFailed ∨
     (finishSession cat uploadOk insertOk exportOk catUploadOk st).err =
        some RunError.commitFailed) →
    (finishSession cat uploadOk insertOk exportOk catUploadOk st).catalog = cat := by
  unfold finishSession
  split
  · split
    · intro h
      rcases h with h | h | h
      · exact absurd h
          (commitPhase_err_not_early cat insertOk exportOk catUploadOk st.entries
            (st.shards ++ [st.cur])).1
      · exact absurd h
          (commitPhase_err_not_early cat insertOk exportOk catUploadOk st.entries
            (st.shards ++ [st.cur])).2
      · exact commitPhase_commitFailed cat insertOk exportOk catUploadOk st.entries
          (st.shards ++ [st.cur]) h
    · intro _
      rfl
  · intro h
    rcases h with h | h | h
    · exact absurd h
        (commitPhase_err_not_early cat insertOk exportOk catUploadOk st.entries
          st.shards).1
    · exact absurd h
        (commitPhase_err_not_early cat insertOk exportOk catUploadOk st.entries
          st.shards).2
    · exact commitPhase_commitFailed cat insertOk exportOk catUploadOk st.entries
        st.shards h

theorem runBackup_preCommit_catalog (cat : List FileEntry) (t : DateTime)
    (files : List PackFile) (cancelFrom : Option Nat) (uploadOk : Nat → Bool)
    (insertOk : FileEntry → Bool) (exportOk catUploadOk : Bool) :
    ((runBackup cat t files cancelFrom uploadOk insertOk exportOk catUploadOk).err =
        some RunError.cancelled ∨
     (runBackup cat t files cancelFrom uploadOk insertOk exportOk catUploadOk).err =
        some RunError.uploadFailed ∨
     (runBackup cat t files cancelFrom uploadOk insertOk exportOk catUploadOk).err =
        some RunError.commitFailed) →
    (runBackup cat t files cancelFrom uploadOk insertOk exportOk catUploadOk).catalog =
      cat := by
  unfold runBackup
  split
  · intro _
    rfl
  · split
    · intro _
      rfl
    · exact finishSession_catalog_pre cat uploadOk insertOk exportOk catUploadOk _

theorem runBackup_shards_ok (cat : List FileEntry) (t : DateTime)
    (files : List PackFile) (cancelFrom : Option Nat) (uploadOk : Nat → Bool)
    (insertOk : FileEntry → Bool) (exportOk catUploadOk : Bool) :
    ∀ sh ∈ (runBackup cat t files cancelFrom uploadOk insertOk exportOk
        catUploadOk).shards, ShardOk sh := by
  have hinv := packLoop_shards t cancelFrom uploadOk files 0 ⟨0, [], 1, [], []⟩
    rfl (Nat.zero_le _) (by intro sh hsh; simp at hsh)
  unfold runBackup
  split
  · intro sh hsh
    simp at hsh
  · split
    · rename_i e shs heq
      exact hinv.2 e shs heq
    · rename_i st heq
      obtain ⟨hshards, hts, hle⟩ := hinv.1 st heq
      intro sh hmem
      rcases finishSession_shards_sub cat uploadOk insertOk exportOk catUploadOk st
          sh hmem with h | ⟨hcur, hpos⟩
      · exact hshards sh h
      · subst hcur
        refine ShardOk_of_ne_nil ?_ hle
        intro hnil
        rw [hnil] at hts
        simp at hts
        omega

theorem mem_getFilesAtTime {cat : List FileEntry} {t : DateTime} {e : FileEntry} :
    e ∈ getFilesAtTime cat t ↔
      e ∈ cat ∧ maxTsLe cat e.origPath t = some e.timestamp := by
  simp [getFilesAtTime, List.mem_filter]

theorem mem_getFilesAtTimestamp {cat : List FileEntry} {ts : DateTime}
    {e : FileEntry} (h : e ∈ getFilesAtTimestamp cat ts) :
    e ∈ cat ∧ maxTsLe cat e.origPath ts.addSecond = some e.timestamp := by
  have hf := mem_of_mem_dedupByPath h
  have := List.mem_filter.mp hf
  exact ⟨this.1, by simpa using this.2⟩

theorem getFilesAtTimestamp_covers {cat : List FileEntry} {ts : DateTime}
    {e : FileEntry} (hmem : e ∈ cat)
    (hb : DateTime.le e.timestamp ts.addSecond) :
    ∃ d ∈ getFilesAtTimestamp cat ts, d.origPath = e.origPath := by
  obtain ⟨m, hm, _⟩ := maxTsLe_ge hmem rfl hb
  obtain ⟨e0, he0mem, he0p, he0ts, _⟩ := maxTsLe_some hm
  have he0f : e0 ∈ cat.filter (fun e2 =>
      decide (maxTsLe cat e2.origPath ts.addSecond = some e2.timestamp)) := by
    refine List.mem_filter.mpr ⟨he0mem, ?_⟩
    simp only [decide_eq_true_eq, he0p, he0ts]
    exact hm
  obtain ⟨d, hd, hdp⟩ := exists_dedupByPath_path he0f
  exact ⟨d, hd, by rw [hdp, he0p]⟩

theorem getFilesAtTime_covers {cat : List FileEntry} {t : DateTime}
    {e : FileEntry} (hmem : e ∈ cat) (hb : DateTime.le e.timestamp t) :
    ∃ d ∈ getFilesAtTime cat t, d.origPath = e.origPath := by
  obtain ⟨m, hm, _⟩ := maxTsLe_ge hmem rfl hb
  obtain ⟨e0, he0mem, he0p, he0ts, _⟩ := maxTsLe_some hm
  refine ⟨e0, ?_, he0p⟩
  refine mem_getFilesAtTime.mpr ⟨he0mem, ?_⟩
  rw [he0p, he0ts]
  exact hm

theorem mem_getFilesInDirAtTime {cat : List FileEntry} {dir : String}
    {t : DateTime} {e : FileEntry} (h : e ∈ getFilesInDirAtTime cat dir t) :
    e ∈ cat ∧ maxTsLe cat e.origPath t.addSecond = some e.timestamp := by
  have hf := mem_of_mem_dedupByPath h
  have hsplit := List.mem_filter.mp hf
  have := hsplit.2
  rw [Bool.and_eq_true] at this
  exact ⟨hsplit.1, by simpa using this.2⟩

/-- C1: the claim asserts that importing a snapshot is an idempotent merge
with same-key records replaced. On the code it is not: `dosyalar` has no
PRIMARY KEY or UNIQUE index, so the `INSERT OR REPLACE` of `ImportFromFile`
never meets a conflict and appends every snapshot row; importing the same
one-record snapshot into an empty catalog twice leaves two copies of the
record, a different multiset from importing it once. -/
theorem importSnapshotDuplicates :
    importFromFile [] [rowA] = [rowA] ∧
    importFromFile (importFromFile [] [rowA]) [rowA] = [rowA, rowA] ∧
    importFromFile (importFromFile [] [rowA]) [rowA] ≠ importFromFile [] [rowA] := by
  refine ⟨rfl, rfl, ?_⟩
  decide

/-- C2: `GetFileAtTime cat p t` returns none exactly when `p` has no
version with timestamp at-or-before `t + 1s`, and otherwise returns a
version of `p` with timestamp at-or-before `t + 1s` that is maximal among
all such versions. -/
theorem getFileAtTimeSpec (cat : List FileEntry) (p : String) (t : DateTime) :
    (getFileAtTime cat p t = none ↔
      ∀ e ∈ cat, e.origPath = p → ¬ DateTime.le e.timestamp t.addSecond) ∧
    (∀ e, getFileAtTime cat p t = some e →
      e ∈ cat ∧ e.origPath = p ∧ DateTime.le e.timestamp t.addSecond ∧
      ∀ e2 ∈ cat, e2.origPath = p → DateTime.le e2.timestamp t.addSecond →
        DateTime.le e2.timestamp e.timestamp) := by
  constructor
  · unfold getFileAtTime
    rw [selectMaxTs_eq_none]
    constructor
    · intro hnil e hmem hp hb
      have he : e ∈ cat.filter (entryMatches p t.addSecond) :=
        List.mem_filter.mpr ⟨hmem, entryMatches_iff.mpr ⟨hp, hb⟩⟩
      rw [hnil] at he
      simp at he
    · intro h
      rw [List.filter_eq_nil_iff]
      intro e hmem
      intro hmatch
      have := entryMatches_iff.mp hmatch
      exact h e hmem this.1 this.2
  · intro e he
    unfold getFileAtTime at he
    have hmem := selectMaxTs_mem he
    have hf := List.mem_filter.mp hmem
    have hm := entryMatches_iff.mp hf.2
    refine ⟨hf.1, hm.1, hm.2, ?_⟩
    intro e2 h2mem h2p h2b
    exact selectMaxTs_isMax he e2
      (List.mem_filter.mpr ⟨h2mem, entryMatches_iff.mpr ⟨h2p, h2b⟩⟩)

theorem getFileAtTimeSpec_witness :
    rowA2 ∈ sampleCat ∧ rowA2.origPath = "/data/a.txt" ∧
    DateTime.le rowA2.timestamp (DateTime.addSecond ⟨19, 5⟩) ∧
    DateTime.le rowA.timestamp rowA2.timestamp :=
  have h := (getFileAtTimeSpec sampleCat "/data/a.txt" ⟨19, 5⟩).2 rowA2 (by decide)
  ⟨h.1, h.2.1, h.2.2.1, h.2.2.2 rowA (by decide) (by decide) (by decide)⟩

/-- C3 counterexample: the claim states that `files_at_time(t)` keeps every
path having a version at-or-before `t + 1s`. `GetFilesAtTime` applies the
bound `t` with no one-second slack: a catalog whose only record lies
within `(t, t + 1s]` yields an empty result even though the record is
at-or-before `t + 1s`. -/
theorem filesAtTimeCounterexample :
    DateTime.le rowB.timestamp (DateTime.addSecond ⟨29, 0⟩) ∧
    rowB ∈ [rowB] ∧
    getFilesAtTime [rowB] ⟨29, 0⟩ = [] := by
  decide

/-- C3 amended: `GetFilesAtTimestamp t` returns exactly one version per
path having a version at-or-before `t + 1s`, each maximal under that
bound, and omits all other paths; `GetFilesAtTime t` selects and covers
per path the rows of maximal timestamp under the bound `t` itself — the
one-second slack is not applied there. -/
theorem filesAtTimeSpecAmended (cat : List FileEntry) (t : DateTime) :
    (∀ e ∈ getFilesAtTimestamp cat t,
      e ∈ cat ∧ DateTime.le e.timestamp t.addSecond ∧
      ∀ e2 ∈ cat, e2.origPath = e.origPath → DateTime.le e2.timestamp t.addSecond →
        DateTime.le e2.timestamp e.timestamp) ∧
    (∀ p, (∃ e ∈ cat, e.origPath = p ∧ DateTime.le e.timestamp t.addSecond) ↔
      (∃ d ∈ getFilesAtTimestamp cat t, d.origPath = p)) ∧
    ((getFilesAtTimestamp cat t).Pairwise fun a b => a.origPath ≠ b.origPath) ∧
    (∀ e ∈ getFilesAtTime cat t,
      e ∈ cat ∧ DateTime.le e.timestamp t ∧
      ∀ e2 ∈ cat, e2.origPath = e.origPath → DateTime.le e2.timestamp t →
        DateTime.le e2.timestamp e.timestamp) ∧
    (∀ p, (∃ e ∈ cat, e.origPath = p ∧ DateTime.le e.timestamp t) ↔
      (∃ d ∈ getFilesAtTime cat t, d.origPath = p)) := by
  refine ⟨?_, ?_, ?_, ?_, ?_⟩
  · intro e he
    obtain ⟨hmem, hmax⟩ := mem_getFilesAtTimestamp he
    obtain ⟨e0, _, _, he0ts, hle⟩ := maxTsLe_some hmax
    exact ⟨hmem, hle, fun e2 h2mem h2p h2b =>
      maxTsLe_isMax hmax e2 h2mem h2p h2b⟩
  · intro p
    constructor
    · rintro ⟨e, hmem, hp, hb⟩
      obtain ⟨d, hd, hdp⟩ := getFilesAtTimestamp_covers hmem hb
      exact ⟨d, hd, by rw [hdp, hp]⟩
    · rintro ⟨d, hd, hdp⟩
      obtain ⟨hmem, hmax⟩ := mem_getFilesAtTimestamp hd
      obtain ⟨e0, _, _, _, hle⟩ := maxTsLe_some hmax
      exact ⟨d, hmem, hdp, hle⟩
  · unfold getFilesAtTimestamp
    exact dedupByPath_pairwise _
  · intro e he
    obtain ⟨hmem, hmax⟩ := mem_getFilesAtTime.mp he
    obtain ⟨e0, _, _, _, hle⟩ := maxTsLe_some hmax
    exact ⟨hmem, hle, fun e2 h2mem h2p h2b =>
      maxTsLe_isMax hmax e2 h2mem h2p h2b⟩
  · intro p
    constructor
    · rintro ⟨e, hmem, hp, hb⟩
      obtain ⟨d, hd, hdp⟩ := getFilesAtTime_covers hmem hb
      exact ⟨d, hd, by rw [hdp, hp]⟩
    · rintro ⟨d, hd, hdp⟩
      obtain ⟨hmem, hmax⟩ := mem_getFilesAtTime.mp hd
      obtain ⟨e0, _, _, _, hle⟩ := maxTsLe_some hmax
      exact ⟨d, hmem, hdp, hle⟩

theorem filesAtTimeSpecAmended_witness :
    ∃ d ∈ getFilesAtTimestamp sampleCat ⟨25, 0⟩, d.origPath = "/data/a.txt" :=
  ((filesAtTimeSpecAmended sampleCat ⟨25, 0⟩).2.1 "/data/a.txt").mp
    ⟨rowA2, by decide, by decide, by decide⟩

/-- C4: assuming the catalog query succeeds, `NeedsBackup p h s` is true
iff the latest version of `p` is absent or its content hash differs from
`h`; the size argument never changes the result; and the scanner emits no
ChangeRecord for a file whose current content hash equals the content hash
of its latest catalog version. -/
theorem needsBackupSpec (cat : List FileEntry) (p h : String) (s s2 : Int)
    (seen blacklist : List String) (ext : String) :
    (needsBackup cat p h s = true ↔
      (getLatestVersion cat p = none ∨
       ∃ e, getLatestVersion cat p = some e ∧ e.contentHash ≠ h)) ∧
    needsBackup cat p h s = needsBackup cat p h s2 ∧
    (∀ e, getLatestVersion cat p = some e → e.contentHash = h →
      scanStepEmits cat seen blacklist p ext s (some h) = false) := by
  refine ⟨?_, rfl, ?_⟩
  · unfold needsBackup
    cases h0 : getLatestVersion cat p with
    | none => simp
    | some latest =>
      simp only [decide_eq_true_eq, Option.some.injEq]
      constructor
      · intro hne
        exact Or.inr ⟨latest, rfl, hne⟩
      · rintro (h1 | ⟨e, he, hne⟩)
        · exact absurd h1 (by simp)
        · exact he ▸ hne
  · intro e he hh
    have hfalse : needsBackup cat p h s = false := by
      unfold needsBackup
      rw [he]
      simp [hh]
    unfold scanStepEmits
    split
    · rfl
    · split
      · rfl
      · split
        · rfl
        · exact hfalse

theorem needsBackupSpec_witness :
    scanStepEmits sampleCat [] [] "/data/a.txt" ".txt" 6 (some "c2") = false ∧
    needsBackup sampleCat "/data/a.txt" "c2" 6 =
      needsBackup sampleCat "/data/a.txt" "c2" 99 :=
  ⟨(needsBackupSpec sampleCat "/data/a.txt" "c2" 6 99 [] [] ".txt").2.2 rowA2
      (by decide) (by decide),
   (needsBackupSpec sampleCat "/data/a.txt" "c2" 6 99 [] [] ".txt").2.1⟩

/-- C5: `AddEntries` is atomic — it either appends every entry of the list
or leaves the catalog unchanged — and whenever a backup session fails or
is cancelled before (or at) the commit point, the catalog and hence
`latest_version(p)` for every path `p` are unchanged. -/
theorem addEntriesAtomicSpec (cat : List FileEntry) (t : DateTime)
    (files : List PackFile) (cancelFrom : Option Nat) (uploadOk : Nat → Bool)
    (insertOk : FileEntry → Bool) (exportOk catUploadOk : Bool)
    (C entries : List FileEntry) (insertOk2 : FileEntry → Bool) :
    (addEntries C entries insertOk2 = (true, C ++ entries) ∨
     addEntries C entries insertOk2 = (false, C)) ∧
    (((runBackup cat t files cancelFrom uploadOk insertOk exportOk
          catUploadOk).err = some RunError.cancelled ∨
      (runBackup cat t files cancelFrom uploadOk insertOk exportOk
          catUploadOk).err = some RunError.uploadFailed ∨
      (runBackup cat t files cancelFrom uploadOk insertOk exportOk
          catUploadOk).err = some RunError.commitFailed) →
      ∀ p, getLatestVersion (runBackup cat t files cancelFrom uploadOk insertOk
          exportOk catUploadOk).catalog p = getLatestVersion cat p) := by
  refine ⟨addEntries_spec C entries insertOk2, ?_⟩
  intro herr p
  rw [runBackup_preCommit_catalog cat t files cancelFrom uploadOk insertOk
    exportOk catUploadOk herr]

theorem addEntriesAtomicSpec_witness :
    (runBackup sampleCat ⟨40, 0⟩ [pfA] (some 0) (fun _ => true) (fun _ => true)
        true true).err = some RunError.cancelled ∧
    getLatestVersion (runBackup sampleCat ⟨40, 0⟩ [pfA] (some 0) (fun _ => true)
        (fun _ => true) true true).catalog "/data/a.txt" =
      getLatestVersion sampleCat "/data/a.txt" :=
  ⟨by decide,
   (addEntriesAtomicSpec sampleCat ⟨40, 0⟩ [pfA] (some 0) (fun _ => true)
      (fun _ => true) true true sampleCat [] (fun _ => true)).2
     (Or.inl (by decide)) "/data/a.txt"⟩

/-- C6: in the packing loop a shard is sealed and uploaded as soon as its
accumulated member bytes exceed `maxTarSize`, so every uploaded shard
consists of some members whose sizes sum to at most `maxTarSize` plus one
final member that may tip it over the bound. -/
theorem shardSizeBoundSpec (cat : List FileEntry) (t : DateTime)
    (files : List PackFile) (cancelFrom : Option Nat) (uploadOk : Nat → Bool)
    (insertOk : FileEntry → Bool) (exportOk catUploadOk : Bool) :
    ∀ sh ∈ (runBackup cat t files cancelFrom uploadOk insertOk exportOk
        catUploadOk).shards,
      ∃ pre m, sh = pre ++ [m] ∧ pre.sum ≤ maxTarSize := by
  intro sh hsh
  exact runBackup_shards_ok cat t files cancelFrom uploadOk insertOk exportOk
    catUploadOk sh hsh

theorem shardSizeBoundSpec_witness :
    ∃ pre m, ([26214400, 3] : List Nat) = pre ++ [m] ∧ pre.sum ≤ maxTarSize :=
  shardSizeBoundSpec [] ⟨40, 0⟩ [pfBig, pfA] none (fun _ => true) (fun _ => true)
    true true [26214400, 3] (by decide)

/-- C7 counterexample: `Service.Run` derives the session id from the
clock with no throttling; two sessions started at distinct instants lying
in the same whole second receive the same session id and timestamps less
than one second apart, contradicting the claimed one-second separation. -/
theorem sessionThrottleCounterexample :
    (runSessionStart ⟨100, 0⟩).backupID =
      (runSessionStart ⟨100, 900000000⟩).backupID ∧
    (runSessionStart ⟨100, 0⟩).timestamp ≠
      (runSessionStart ⟨100, 900000000⟩).timestamp ∧
    (runSessionStart ⟨100, 900000000⟩).timestamp.sec -
      (runSessionStart ⟨100, 0⟩).timestamp.sec = 0 := by
  decide

/-- C7 amended: the driver performs no throttling; the session id is the
start instant truncated to the whole second, so two sessions share a
session id exactly when their start instants fall in the same whole
second (in particular sessions started within one second are not kept
apart). -/
theorem sessionIdSameSecond (t1 t2 : DateTime) :
    (runSessionStart t1).backupID = (runSessionStart t2).backupID ↔
      t1.sec = t2.sec :=
  Iff.rfl

theorem sessionIdSameSecond_witness :
    (runSessionStart ⟨100, 1⟩).backupID = (runSessionStart ⟨100, 2⟩).backupID :=
  (sessionIdSameSecond ⟨100, 1⟩ ⟨100, 2⟩).mpr rfl

/-- C8: for every byte string and every valid 32-byte key, decrypting and
decompressing the output of `CompressAndEncrypt` returns exactly the
input, for any gzip and AEAD primitives satisfying their library
round-trip laws and any fresh nonce of the GCM nonce size. -/
theorem cryptoRoundTrip (G : GzipModel) (M : AEADModel) (nonce x k : Bytes)
    (hG : ∀ d, G.decompress (G.compress d) = some d)
    (hM : ∀ key n d, M.gcmOpen key n (M.gcmSeal key n d) = some d)
    (hn : nonce.length = gcmNonceSize) (hk : k.length = 32) :
    ∃ sealed, CompressAndEncrypt G M nonce x k = .ok sealed ∧
      DecryptAndDecompress G M sealed k = .ok x := by
  have hkey : validAesKey k = true := by simp [validAesKey, hk]
  refine ⟨nonce ++ M.gcmSeal k nonce (G.compress x), ?_, ?_⟩
  · simp [CompressAndEncrypt, Encrypt, hkey]
  · have hlen : ¬ (nonce.length + (M.gcmSeal k nonce (G.compress x)).length <
        gcmNonceSize) := by
      rw [hn]
      omega
    have htake : (nonce ++ M.gcmSeal k nonce (G.compress x)).take gcmNonceSize =
        nonce := by
      rw [← hn]
      exact List.take_left nonce _
    have hdrop : (nonce ++ M.gcmSeal k nonce (G.compress x)).drop gcmNonceSize =
        M.gcmSeal k nonce (G.compress x) := by
      rw [← hn]
      exact List.drop_left nonce _
    unfold DecryptAndDecompress Decrypt
    simp [hkey, hlen, htake, hdrop, hM, hG]

theorem cryptoRoundTrip_witness :
    ∃ sealed, CompressAndEncrypt idGzip idAEAD (List.replicate 12 0) [1, 2, 3]
        (List.replicate 32 0) = .ok sealed ∧
      DecryptAndDecompress idGzip idAEAD sealed (List.replicate 32 0) =
        .ok [1, 2, 3] :=
  cryptoRoundTrip idGzip idAEAD (List.replicate 12 0) [1, 2, 3]
    (List.replicate 32 0) (fun _ => rfl) (fun _ _ _ => rfl) (by decide) (by decide)

/-- C9: each `(hashed_name, target_date)` pair sent to the restore-files
endpoint carries the resolved FileVersion timestamp as target date — for a
single-file restore the timestamp of the `GetFileAtTime` result, for a
directory restore the timestamp of the corresponding `GetFilesInDirAtTime`
result — never the requested target time itself. -/
theorem restoreRequestUsesVersionTimestamp (cat : List FileEntry)
    (p dir : String) (t : DateTime) :
    (∀ req, restoreFileRequest cat p t = some req →
      ∃ f, getFileAtTime cat p t = some f ∧
        req = [(f.hashedName, formatTargetDate f.timestamp)]) ∧
    (∀ req, restoreDirectoryRequest cat dir t = some req →
      req = (getFilesInDirAtTime cat dir t).map
        (fun f => (f.hashedName, formatTargetDate f.timestamp)) ∧
      ∀ pr ∈ req, ∃ f ∈ getFilesInDirAtTime cat dir t,
        pr = (f.hashedName, formatTargetDate f.timestamp) ∧
        DateTime.le f.timestamp t.addSecond) := by
  constructor
  · intro req hreq
    unfold restoreFileRequest at hreq
    split at hreq
    · exact absurd hreq (by simp)
    · rename_i f heq
      simp only [Option.some.injEq] at hreq
      exact ⟨f, heq, hreq.symm⟩
  · intro req hreq
    unfold restoreDirectoryRequest at hreq
    split at hreq
    · exact absurd hreq (by simp)
    · simp only [Option.some.injEq] at hreq
      refine ⟨hreq.symm, ?_⟩
      intro pr hpr
      rw [← hreq] at hpr
      obtain ⟨f, hf, hpf⟩ := List.mem_map.mp hpr
      obtain ⟨_, hmax⟩ := mem_getFilesInDirAtTime hf
      obtain ⟨e0, _, _, _, hle⟩ := maxTsLe_some hmax
      exact ⟨f, hf, hpf.symm, hle⟩

theorem restoreRequestUsesVersionTimestamp_witness :
    ∃ f, getFileAtTime sampleCat "/data/a.txt" ⟨19, 5⟩ = some f ∧
      [("ha", (20 : Int))] = [(f.hashedName, formatTargetDate f.timestamp)] :=
  (restoreRequestUsesVersionTimestamp sampleCat "/data/a.txt" "/data"
    ⟨19, 5⟩).1 [("ha", 20)] (by decide)

/-- C10: for every 32-byte key and every input shorter than the 12-byte
GCM nonce, `Decrypt` returns the error "ciphertext too short"; the
nonce/ciphertext split only happens on inputs of at least the nonce
size. -/
theorem decryptShortInput (M : AEADModel) (data k : Bytes)
    (hk : k.length = 32) (hshort : data.length < gcmNonceSize) :
    Decrypt M data k = .error "ciphertext too short" := by
  have hkey : validAesKey k = true := by simp [validAesKey, hk]
  unfold Decrypt
  simp [hkey, hshort]

theorem decryptShortInput_witness :
    Decrypt idAEAD [1, 2, 3] (List.replicate 32 0) =
      .error "ciphertext too short" :=
  decryptShortInput idAEAD [1, 2, 3] (List.replicate 32 0) (by decide) (by decide)

end BackupSystem
